import Mathlib

/-
Verification of the go-iq-decoder signal-processing core.

Shallow embedding conventions:
* Go `float32`/`float64` sample values and `ratio` arithmetic are embedded as
  exact rationals (`ℚ`) where only the discrete index structure matters
  (FIR filter), and as reals (`ℝ`, `ℂ`) where transcendental functions
  (`cmplx.Phase`, `math.Sin`, `math.Cos`) are involved.
* Go `int(x)` truncation of the nonnegative quantities appearing in the
  filter index arithmetic is embedded as `Int.floor` (they agree on
  nonnegative arguments, and the sign analysis is carried out in the proofs).
* Fallible/blocking operations return `Option`: `none` models a Go `nil`
  return, a blocked call, or a panic, as documented at each definition.
* Stateful methods are embedded as state-passing functions
  `State → Input → State × Output`.
-/

namespace IQDecoder

set_option maxHeartbeats 1000000

/-! ## Decimating FIR filter (src/internal/dsp/fir.go) -/

/-- Embedding of the Go struct `FIRFilter` with `taps []float64` and
`state []float32`, both as rational-valued lists. -/
structure FIRFilter where
  taps : List ℚ
  state : List ℚ
deriving DecidableEq, Repr

/-- Embedding of `NewFIRFilter`: the initial tail is `len(taps) - 1` zeros. -/
def NewFIRFilter (taps : List ℚ) : FIRFilter :=
  { taps := taps, state := List.replicate (taps.length - 1) 0 }

/-- The inner accumulation loop of `FIRFilter.Process`:
`for j, tap := range taps { acc += buffer[start+j] * tap }`.
Out-of-range accesses (which panic in Go) are read as a default `0` here;
claim C10 shows they never occur on the producing path. -/
def dotAt (taps buffer : List ℚ) (start : ℕ) : ℚ :=
  (List.range taps.length).foldl
    (fun acc j => acc + buffer.getD (start + j) 0 * taps.getD j 0) 0

/-- Embedding of `FIRFilter.Process`.  The working buffer is the stored state
followed by the input; `outputLen = int((len(buffer)-len(taps)+1) * ratio)`;
if `outputLen <= 0` the whole buffer is saved and `nil` (here `none`) is
returned, otherwise output sample `i` is the kernel dot product starting at
`int(i * (1/ratio))` and the new state is the last `len(taps)-1` buffer
samples. -/
def FIRFilter.Process (f : FIRFilter) (input : List ℚ) (ratio : ℚ) :
    FIRFilter × Option (List ℚ) :=
  let buffer := f.state ++ input
  let outputLen : ℤ := ⌊((buffer.length : ℚ) - (f.taps.length : ℚ) + 1) * ratio⌋
  if outputLen ≤ 0 then
    ({ f with state := buffer }, none)
  else
    let output := (List.range outputLen.toNat).map fun i : ℕ =>
      dotAt f.taps buffer (⌊(i : ℚ) / ratio⌋).toNat
    ({ f with state := buffer.drop (buffer.length - (f.taps.length - 1)) }, some output)

/-- Feeding a list of successive input blocks through one filter instance,
concatenating all produced outputs (a `nil` return contributes nothing). -/
def runFIR (r : ℚ) : FIRFilter → List (List ℚ) → FIRFilter × List ℚ
  | f, [] => (f, [])
  | f, c :: cs =>
    let step := f.Process c r
    let rest := runFIR r step.1 cs
    (rest.1, step.2.getD [] ++ rest.2)

/-- Cumulative input length of the first `k` blocks of a split. -/
def cumLen (chunks : List (List ℚ)) (k : ℕ) : ℕ :=
  ((chunks.take k).flatten).length

/-! ### Helper lemmas about `dotAt` -/

lemma foldl_range_add (g : ℕ → ℚ) (c : ℚ) :
    ∀ n : ℕ, (List.range n).foldl (fun acc j => acc + g j) c =
      c + ∑ j ∈ Finset.range n, g j := by
  intro n
  induction n generalizing c with
  | zero => simp
  | succ n ih =>
      rw [List.range_succ, List.foldl_append, ih, Finset.sum_range_succ]
      simp [add_assoc]

/-- The Go accumulation loop computes the window-times-taps sum. -/
lemma dotAt_eq_sum (taps buffer : List ℚ) (start : ℕ) :
    dotAt taps buffer start =
      ∑ j ∈ Finset.range taps.length, buffer.getD (start + j) 0 * taps.getD j 0 := by
  unfold dotAt
  rw [foldl_range_add]
  simp

/-! ### C3: Process step contract -/

/-- C3: Decimating FIR Filter `Process` step contract.  The working buffer is
the stored tail followed by the input block; `outputLen` is
`⌊(len(buffer) - tapCount + 1) * ratio⌋`; if `outputLen ≤ 0` the entire
working buffer is saved as the new tail and the result is absent (`none`);
otherwise the result is present with exactly `outputLen` samples, sample `i`
being the dot product of the `tapCount` consecutive working-buffer samples
beginning at `⌊i / ratio⌋` with the kernel taps, and the new tail is the last
`tapCount - 1` samples of the working buffer. -/
theorem fir_process_step_contract (f : FIRFilter) (input : List ℚ) (ratio : ℚ)
    (hstate : f.taps.length ≤ f.state.length + 1) :
    (⌊(((f.state ++ input).length : ℚ) - (f.taps.length : ℚ) + 1) * ratio⌋ ≤ 0 →
      f.Process input ratio = ({ f with state := f.state ++ input }, none)) ∧
    (0 < ⌊(((f.state ++ input).length : ℚ) - (f.taps.length : ℚ) + 1) * ratio⌋ →
      ∃ out : List ℚ,
        f.Process input ratio =
          ({ f with
              state := (f.state ++ input).drop
                ((f.state ++ input).length - (f.taps.length - 1)) }, some out) ∧
        out.length =
          (⌊(((f.state ++ input).length : ℚ) - (f.taps.length : ℚ) + 1) * ratio⌋).toNat ∧
        (∀ i, i < out.length →
          out.getD i 0 =
            ∑ j ∈ Finset.range f.taps.length,
              (f.state ++ input).getD ((⌊(i : ℚ) / ratio⌋).toNat + j) 0 *
                f.taps.getD j 0) ∧
        (f.Process input ratio).1.state.length = f.taps.length - 1) := by
  constructor
  · intro h
    unfold FIRFilter.Process
    rw [if_pos h]
  · intro h
    have hne := not_le.mpr h
    refine ⟨(List.range (⌊(((f.state ++ input).length : ℚ) - (f.taps.length : ℚ) + 1)
        * ratio⌋).toNat).map
        (fun i : ℕ => dotAt f.taps (f.state ++ input) (⌊(i : ℚ) / ratio⌋).toNat),
        ?_, ?_, ?_, ?_⟩
    · unfold FIRFilter.Process
      rw [if_neg hne]
    · simp
    · intro i hi
      simp only [List.length_map, List.length_range] at hi
      rw [List.getD_eq_getElem?_getD, List.getElem?_map, List.getElem?_range hi]
      simp [dotAt_eq_sum]
    · unfold FIRFilter.Process
      rw [if_neg hne]
      simp only [List.length_drop]
      have h1 : f.taps.length - 1 ≤ (f.state ++ input).length := by
        simp only [List.length_append]
        omega
      omega

/-- Witness for C3 at `f = NewFIRFilter [1, 2]`, `input = [5, 6, 7]`,
`ratio = 1`. -/
theorem fir_process_step_contract_witness :
    (NewFIRFilter [1, 2]).taps.length ≤ (NewFIRFilter [1, 2]).state.length + 1 ∧
    ((⌊((((NewFIRFilter [1, 2]).state ++ [5, 6, 7]).length : ℚ) -
        ((NewFIRFilter [1, 2]).taps.length : ℚ) + 1) * 1⌋ ≤ 0 →
      (NewFIRFilter [1, 2]).Process [5, 6, 7] 1 =
        ({ NewFIRFilter [1, 2] with
            state := (NewFIRFilter [1, 2]).state ++ [5, 6, 7] }, none)) ∧
    (0 < ⌊((((NewFIRFilter [1, 2]).state ++ [5, 6, 7]).length : ℚ) -
        ((NewFIRFilter [1, 2]).taps.length : ℚ) + 1) * 1⌋ →
      ∃ out : List ℚ,
        (NewFIRFilter [1, 2]).Process [5, 6, 7] 1 =
          ({ NewFIRFilter [1, 2] with
              state := ((NewFIRFilter [1, 2]).state ++ [5, 6, 7]).drop
                (((NewFIRFilter [1, 2]).state ++ [5, 6, 7]).length -
                  ((NewFIRFilter [1, 2]).taps.length - 1)) }, some out) ∧
        out.length =
          (⌊((((NewFIRFilter [1, 2]).state ++ [5, 6, 7]).length : ℚ) -
            ((NewFIRFilter [1, 2]).taps.length : ℚ) + 1) * 1⌋).toNat ∧
        (∀ i, i < out.length →
          out.getD i 0 =
            ∑ j ∈ Finset.range (NewFIRFilter [1, 2]).taps.length,
              ((NewFIRFilter [1, 2]).state ++ [5, 6, 7]).getD
                ((⌊(i : ℚ) / 1⌋).toNat + j) 0 *
                (NewFIRFilter [1, 2]).taps.getD j 0) ∧
        ((NewFIRFilter [1, 2]).Process [5, 6, 7] 1).1.state.length =
          (NewFIRFilter [1, 2]).taps.length - 1)) :=
  ⟨by simp [NewFIRFilter],
    fir_process_step_contract (NewFIRFilter [1, 2]) [5, 6, 7] 1
      (by simp [NewFIRFilter])⟩

/-! ### C10: in-bounds safety of the producing path -/

lemma floor_div_lt_avail {r : ℚ} (hr : 0 < r) {A : ℤ} {i : ℕ}
    (hi : (i : ℤ) < ⌊(A : ℚ) * r⌋) : ⌊(i : ℚ) / r⌋ < A := by
  rw [Int.floor_lt, div_lt_iff₀ hr]
  have h1 : ((i : ℤ) : ℚ) + 1 ≤ (A : ℚ) * r := by
    have := Int.le_floor.mp (by omega : (i : ℤ) + 1 ≤ ⌊(A : ℚ) * r⌋)
    push_cast at this ⊢
    linarith
  push_cast at h1 ⊢
  linarith

/-- C10: whenever `Process` takes the producing path (`outputLen > 0`) with a
non-empty kernel and a positive ratio, every working-buffer access
`buffer[start + j]` performed by the accumulation loop lies within the
working buffer's bounds, so the `Option`-returning index is never `none`. -/
theorem fir_process_inbounds (f : FIRFilter) (input : List ℚ) (ratio : ℚ)
    (_htaps : f.taps ≠ []) (hr : 0 < ratio)
    (hpos : 0 < ⌊(((f.state ++ input).length : ℚ) - (f.taps.length : ℚ) + 1) * ratio⌋) :
    ∀ i < (⌊(((f.state ++ input).length : ℚ) - (f.taps.length : ℚ) + 1) * ratio⌋).toNat,
      ∀ j < f.taps.length,
        (⌊(i : ℚ) / ratio⌋).toNat + j < (f.state ++ input).length ∧
        ((f.state ++ input)[(⌊(i : ℚ) / ratio⌋).toNat + j]?).isSome := by
  intro i hi j hj
  set L := (f.state ++ input).length with hL
  set T := f.taps.length with hT
  have hA : ((((L : ℤ) - T + 1) : ℤ) : ℚ) = (L : ℚ) - (T : ℚ) + 1 := by push_cast; ring
  have hpos' : 0 < ⌊((((L : ℤ) - T + 1) : ℤ) : ℚ) * ratio⌋ := by rw [hA]; exact hpos
  have hApos : 0 < (L : ℤ) - T + 1 := by
    by_contra hc
    push_neg at hc
    have hq : ((((L : ℤ) - T + 1) : ℤ) : ℚ) * ratio ≤ 0 :=
      mul_nonpos_iff.mpr (Or.inr ⟨by exact_mod_cast hc, le_of_lt hr⟩)
    have := Int.floor_nonpos hq
    omega
  have hi' : (i : ℤ) < ⌊((((L : ℤ) - T + 1) : ℤ) : ℚ) * ratio⌋ := by
    rw [hA]
    omega
  have hs : ⌊(i : ℚ) / ratio⌋ < (L : ℤ) - T + 1 := floor_div_lt_avail hr hi'
  have hs0 : 0 ≤ ⌊(i : ℚ) / ratio⌋ :=
    Int.floor_nonneg.mpr (div_nonneg (by positivity) (le_of_lt hr))
  have hlt : (⌊(i : ℚ) / ratio⌋).toNat + j < L := by omega
  exact ⟨hlt, by rw [List.getElem?_eq_getElem hlt]; rfl⟩

/-- Witness for C10 at `f = NewFIRFilter [1, 2]`, `input = [5, 6, 7]`,
`ratio = 1`. -/
theorem fir_process_inbounds_witness :
    (NewFIRFilter [1, 2]).taps ≠ [] ∧ (0 : ℚ) < 1 ∧
    0 < ⌊((((NewFIRFilter [1, 2]).state ++ [5, 6, 7]).length : ℚ) -
        ((NewFIRFilter [1, 2]).taps.length : ℚ) + 1) * 1⌋ ∧
    (∀ i < (⌊((((NewFIRFilter [1, 2]).state ++ [5, 6, 7]).length : ℚ) -
        ((NewFIRFilter [1, 2]).taps.length : ℚ) + 1) * 1⌋).toNat,
      ∀ j < (NewFIRFilter [1, 2]).taps.length,
        (⌊(i : ℚ) / 1⌋).toNat + j < ((NewFIRFilter [1, 2]).state ++ [5, 6, 7]).length ∧
        (((NewFIRFilter [1, 2]).state ++ [5, 6, 7])[(⌊(i : ℚ) / 1⌋).toNat + j]?).isSome) :=
  ⟨by simp [NewFIRFilter], by norm_num, by norm_num [NewFIRFilter],
    fir_process_inbounds (NewFIRFilter [1, 2]) [5, 6, 7] 1
      (by simp [NewFIRFilter]) (by norm_num) (by norm_num [NewFIRFilter])⟩

/-! ### C2: chunk-invariance — counterexample and amended aligned-split law -/

/-- C2 counterexample computation: with kernel `[1]` and ratio `1/2`,
splitting `[1, 2, 3, 4, 5, 6]` as `[1, 2, 3] / [4, 5, 6]` yields the
concatenated output `[1, 4]`, while the monolithic call yields `[1, 3, 5]`:
the unaligned boundary shifts the decimation phase. -/
theorem fir_chunk_invariance_counterexample :
    (runFIR (1/2) (NewFIRFilter [1]) [[1, 2, 3], [4, 5, 6]]).2 ≠
      ((NewFIRFilter [1]).Process [1, 2, 3, 4, 5, 6] (1/2)).2.getD [] := by
  have h3 : List.range (Int.toNat 3) = [0, 1, 2] := rfl
  norm_num [runFIR, FIRFilter.Process, NewFIRFilter, dotAt, h3, List.range_succ]

/-- The `i`-th output sample of a monolithic run over the whole input `x`
from a fresh filter (whose working buffer is `tapCount - 1` zeros followed
by `x`). -/
def monoOutAt (taps : List ℚ) (r : ℚ) (x : List ℚ) (i : ℕ) : ℚ :=
  dotAt taps (List.replicate (taps.length - 1) 0 ++ x) (⌊(i : ℚ) / r⌋).toNat

/-- The full output of a monolithic run over `x` from a fresh filter. -/
def monoFIR (taps : List ℚ) (r : ℚ) (x : List ℚ) : List ℚ :=
  (List.range (⌊(x.length : ℚ) * r⌋).toNat).map (monoOutAt taps r x)

/-- A split is aligned when every proper chunk boundary's cumulative input
length lands on the decimation grid: `cumLen * ratio` is an integer. -/
def alignedSplit (r : ℚ) (chunks : List (List ℚ)) : Prop :=
  ∀ k, 0 < k → k < chunks.length →
    ((⌊(cumLen chunks k : ℚ) * r⌋ : ℤ) : ℚ) = (cumLen chunks k : ℚ) * r

/-- A single `Process` call from a fresh filter computes `monoFIR`. -/
lemma process_new_eq_monoFIR (taps : List ℚ) (r : ℚ) (x : List ℚ)
    (hT : 1 ≤ taps.length) :
    ((NewFIRFilter taps).Process x r).2.getD [] = monoFIR taps r x := by
  unfold FIRFilter.Process NewFIRFilter monoFIR monoOutAt
  have hlen : (((List.replicate (taps.length - 1) (0 : ℚ) ++ x).length : ℚ)
      - (taps.length : ℚ) + 1) = (x.length : ℚ) := by
    simp only [List.length_append, List.length_replicate]
    push_cast [Nat.cast_sub hT]
    ring
  simp only [hlen]
  by_cases h : ⌊(x.length : ℚ) * r⌋ ≤ 0
  · rw [if_pos h]
    simp [Int.toNat_of_nonpos h]
  · rw [if_neg h]
    simp

lemma dotAt_take_drop (taps B : List ℚ) (P d st : ℕ)
    (hP : d + st + taps.length ≤ P) :
    dotAt taps ((B.take P).drop d) st = dotAt taps B (d + st) := by
  rw [dotAt_eq_sum, dotAt_eq_sum]
  refine Finset.sum_congr rfl ?_
  intro j hj
  rw [Finset.mem_range] at hj
  have hidx : d + (st + j) = d + st + j := by omega
  rw [List.getD_eq_getElem?_getD, List.getD_eq_getElem?_getD, List.getElem?_drop,
    List.getElem?_take, if_pos (by omega : d + (st + j) < P), hidx,
    List.getD_eq_getElem?_getD]

lemma floor_div_shift {r : ℚ} (hr : 0 < r) (d e i : ℕ)
    (he : (e : ℚ) = (d : ℚ) * r) :
    ⌊((e + i : ℕ) : ℚ) / r⌋ = (d : ℤ) + ⌊(i : ℚ) / r⌋ := by
  have hrne : r ≠ 0 := ne_of_gt hr
  have h1 : ((e + i : ℕ) : ℚ) / r = (i : ℚ) / r + ((d : ℤ) : ℚ) := by
    push_cast
    rw [he]
    field_simp
    ring
  rw [h1, Int.floor_add_int]
  omega

lemma map_range_segment (g : ℕ → ℚ) (M e m : ℕ) (hem : e + m ≤ M) :
    (((List.range M).map g).drop e).take m = (List.range m).map (fun i => g (e + i)) := by
  apply List.ext_getElem?
  intro n
  rw [List.getElem?_take]
  by_cases hn : n < m
  · rw [if_pos hn, List.getElem?_drop, List.getElem?_map, List.getElem?_map,
      List.getElem?_range hn, List.getElem?_range (by omega : e + n < M)]
    simp
  · rw [if_neg hn]
    symm
    apply List.getElem?_eq_none
    simp only [List.length_map, List.length_range]
    omega

lemma drop_eq_take_append_drop (l : List ℚ) (e m : ℕ) :
    l.drop e = (l.drop e).take m ++ l.drop (e + m) := by
  conv_lhs => rw [← List.take_append_drop m (l.drop e)]
  rw [List.drop_drop]

lemma runFIR_aligned_inv (taps : List ℚ) (r : ℚ) (x : List ℚ)
    (hT : 1 ≤ taps.length) (hr : 0 < r) :
    ∀ (cs : List (List ℚ)) (s₀ d e : ℕ),
      d ≤ s₀ →
      (e : ℚ) = (d : ℚ) * r →
      ⌊((s₀ : ℚ) - (d : ℚ)) * r⌋ ≤ 0 →
      s₀ + cs.flatten.length = x.length →
      cs.flatten = x.drop s₀ →
      (∀ k, 0 < k → k < cs.length →
        ((⌊((s₀ + ((cs.take k).flatten).length : ℕ) : ℚ) * r⌋ : ℤ) : ℚ) =
          ((s₀ + ((cs.take k).flatten).length : ℕ) : ℚ) * r) →
      (runFIR r { taps := taps,
                  state := ((List.replicate (taps.length - 1) 0 ++ x).take
                    ((taps.length - 1) + s₀)).drop d } cs).2 =
        (monoFIR taps r x).drop e := by
  intro cs
  induction cs with
  | nil =>
    intro s₀ d e hds hde hpend htot hrest halign
    have hn : s₀ = x.length := by simpa using htot
    have hkey : ⌊(x.length : ℚ) * r⌋ ≤ (e : ℤ) := by
      have h2 : (x.length : ℚ) * r = ((x.length : ℚ) - (d : ℚ)) * r + ((e : ℤ) : ℚ) := by
        push_cast
        rw [hde]
        ring
      rw [h2, Int.floor_add_int]
      rw [hn] at hpend
      omega
    symm
    apply List.drop_eq_nil_of_le
    simp only [monoFIR, List.length_map, List.length_range]
    omega
  | cons c cs' ih =>
    intro s₀ d e hds hde hpend htot hrest halign
    set B := List.replicate (taps.length - 1) (0 : ℚ) ++ x with hB
    have hflat : (c :: cs').flatten.length = c.length + cs'.flatten.length := by
      simp
    have hs₀n : s₀ ≤ x.length := by omega
    set s₁ := s₀ + c.length with hs₁
    have hds₁ : d ≤ s₁ := by omega
    have hs₁n : s₁ ≤ x.length := by omega
    have hc : c = (x.drop s₀).take c.length := by
      have h := congrArg (List.take c.length) hrest
      rw [List.flatten_cons] at h
      rw [← h, List.take_left]
    have hrest' : cs'.flatten = x.drop s₁ := by
      have h := congrArg (List.drop c.length) hrest
      rw [List.flatten_cons, List.drop_left] at h
      rw [h, List.drop_drop]
    have htake : ∀ s : ℕ, B.take ((taps.length - 1) + s) =
        List.replicate (taps.length - 1) (0 : ℚ) ++ x.take s := by
      intro s
      have h := @List.take_append ℚ (List.replicate (taps.length - 1) (0 : ℚ)) x s
      rw [List.length_replicate] at h
      rw [hB]
      exact h
    have hbuf : ((B.take ((taps.length - 1) + s₀)).drop d) ++ c =
        (B.take ((taps.length - 1) + s₁)).drop d := by
      rw [htake s₀, htake s₁, hs₁, List.take_add, ← hc]
      rw [← List.append_assoc]
      have hdlen : d ≤ (List.replicate (taps.length - 1) (0 : ℚ) ++ x.take s₀).length := by
        rw [List.length_append, List.length_replicate, List.length_take]
        omega
      rw [List.drop_append_of_le_length hdlen]
    have hblen : ((B.take ((taps.length - 1) + s₁)).drop d).length =
        (taps.length - 1) + (s₁ - d) := by
      simp only [List.length_drop, List.length_take, hB, List.length_append,
        List.length_replicate]
      omega
    have hcast : ((((B.take ((taps.length - 1) + s₁)).drop d).length : ℚ) -
        (taps.length : ℚ) + 1) = ((s₁ - d : ℕ) : ℚ) := by
      rw [hblen]
      push_cast [Nat.cast_sub hT, Nat.cast_sub hds₁]
      ring
    by_cases hout : ⌊((s₁ - d : ℕ) : ℚ) * r⌋ ≤ 0
    · -- non-producing call: the whole working buffer becomes the new tail
      have hstep : FIRFilter.Process
          ⟨taps, (B.take ((taps.length - 1) + s₀)).drop d⟩ c r =
          (⟨taps, (B.take ((taps.length - 1) + s₁)).drop d⟩, none) := by
        unfold FIRFilter.Process
        dsimp only
        rw [hbuf, hcast, if_pos hout]
      show (runFIR r _ (c :: cs')).2 = _
      rw [runFIR]
      dsimp only
      rw [hstep]
      dsimp only [Option.getD_none, List.nil_append]
      refine ih s₁ d e hds₁ hde ?_ (by omega) hrest' ?_
      · rw [← Nat.cast_sub hds₁]
        exact hout
      · intro k hk0 hklt
        have h := halign (k + 1) (by omega) (by simp; omega)
        rw [List.take_succ_cons, List.flatten_cons, List.length_append] at h
        have harg : s₀ + (c.length + ((cs'.take k).flatten).length) =
            s₁ + ((cs'.take k).flatten).length := by omega
        rw [harg] at h
        exact h
    · -- producing call
      push_neg at hout
      set m := (⌊((s₁ - d : ℕ) : ℚ) * r⌋).toNat with hm
      have hmz : (m : ℤ) = ⌊((s₁ - d : ℕ) : ℚ) * r⌋ := Int.toNat_of_nonneg (by omega)
      have hstep : FIRFilter.Process
          ⟨taps, (B.take ((taps.length - 1) + s₀)).drop d⟩ c r =
          (⟨taps, (B.take ((taps.length - 1) + s₁)).drop s₁⟩,
            some ((List.range m).map fun i : ℕ =>
              dotAt taps ((B.take ((taps.length - 1) + s₁)).drop d)
                (⌊(i : ℚ) / r⌋).toNat)) := by
        unfold FIRFilter.Process
        dsimp only
        rw [hbuf, hcast, if_neg (by omega)]
        have hdrop : ((B.take ((taps.length - 1) + s₁)).drop d).drop
            (((B.take ((taps.length - 1) + s₁)).drop d).length - (taps.length - 1)) =
            (B.take ((taps.length - 1) + s₁)).drop s₁ := by
          rw [hblen, List.drop_drop]
          have harg : d + ((taps.length - 1) + (s₁ - d) - (taps.length - 1)) = s₁ := by
            omega
          rw [harg]
        rw [hdrop]
      show (runFIR r _ (c :: cs')).2 = _
      rw [runFIR]
      dsimp only
      rw [hstep]
      dsimp only [Option.getD_some]
      -- the floor of s₁ * r is exactly e + m
      have hfloor₁ : ⌊(s₁ : ℚ) * r⌋ = (e : ℤ) + (m : ℤ) := by
        have h2 : (s₁ : ℚ) * r = ((s₁ - d : ℕ) : ℚ) * r + ((e : ℤ) : ℚ) := by
          push_cast [Nat.cast_sub hds₁]
          rw [hde]
          ring
        rw [h2, Int.floor_add_int]
        omega
      have hM : e + m ≤ (⌊(x.length : ℚ) * r⌋).toNat := by
        have hmono : ⌊(s₁ : ℚ) * r⌋ ≤ ⌊(x.length : ℚ) * r⌋ := by
          apply Int.floor_le_floor
          apply mul_le_mul_of_nonneg_right _ (le_of_lt hr)
          exact_mod_cast Nat.cast_le.mpr hs₁n
        omega
      have hlenmono : (monoFIR taps r x).length = (⌊(x.length : ℚ) * r⌋).toNat := by
        simp [monoFIR]
      -- this call's output is exactly the mono output segment [e, e + m)
      have hseg : (List.range m).map (fun i : ℕ =>
            dotAt taps ((B.take ((taps.length - 1) + s₁)).drop d)
              (⌊(i : ℚ) / r⌋).toNat) =
          ((monoFIR taps r x).drop e).take m := by
        rw [monoFIR, map_range_segment _ _ _ _ hM]
        apply List.map_congr_left
        intro i hi
        rw [List.mem_range] at hi
        have hst0 : 0 ≤ ⌊(i : ℚ) / r⌋ :=
          Int.floor_nonneg.mpr (div_nonneg (by positivity) (le_of_lt hr))
        have hstlt : ⌊(i : ℚ) / r⌋ < ((s₁ - d : ℕ) : ℤ) := by
          apply floor_div_lt_avail hr
          rw [Int.cast_natCast]
          omega
        have hP : d + (⌊(i : ℚ) / r⌋).toNat + taps.length ≤ (taps.length - 1) + s₁ := by
          omega
        rw [monoOutAt, ← hB, dotAt_take_drop taps B _ d _ hP]
        congr 1
        rw [floor_div_shift hr d e i hde]
        omega
      rw [hseg]
      conv_rhs => rw [drop_eq_take_append_drop (monoFIR taps r x) e m]
      congr 1
      rcases cs' with _ | ⟨c₂, cs''⟩
      · -- last chunk: everything has been produced
        show (runFIR r _ []).2 = _
        rw [runFIR]
        have hs₁e : s₁ = x.length := by
          rw [List.flatten_cons, List.flatten_nil, List.append_nil] at htot
          omega
        symm
        apply List.drop_eq_nil_of_le
        rw [hlenmono]
        rw [hs₁e] at hfloor₁
        omega
      · -- alignment of this boundary feeds the induction hypothesis
        have halign₁ := halign 1 (by omega) (by simp)
        rw [show (c :: c₂ :: cs'').take 1 = [c] from rfl] at halign₁
        simp only [List.flatten_cons, List.flatten_nil, List.append_nil] at halign₁
        have he' : ((e + m : ℕ) : ℚ) = (s₁ : ℚ) * r := by
          push_cast
          rw [← halign₁, ← hs₁, hfloor₁]
          push_cast
          ring
        refine ih s₁ s₁ (e + m) le_rfl he' (by simp) (by omega) hrest' ?_
        intro k hk0 hklt
        have h := halign (k + 1) (by omega) (by simp at hklt ⊢; omega)
        rw [List.take_succ_cons, List.flatten_cons, List.length_append] at h
        have harg : s₀ + (c.length + (((c₂ :: cs'').take k).flatten).length) =
            s₁ + (((c₂ :: cs'').take k).flatten).length := by omega
        rw [harg] at h
        exact h

/-- C2 (amended): Decimating FIR Filter chunk-invariance under aligned
splits.  For every non-empty kernel, every positive ratio, and every way of
splitting the total input into successive blocks such that each proper chunk
boundary's cumulative input length times the ratio is an integer, the
concatenation of the per-block `Process` outputs is identical to the output
of a single `Process` call over the whole input, both runs starting from the
same freshly created filter with its all-zero tail.  (For arbitrary splits
the law fails: see the counterexample theorem.) -/
theorem fir_chunk_invariance_aligned (taps : List ℚ) (r : ℚ)
    (chunks : List (List ℚ)) (htaps : 1 ≤ taps.length) (hr : 0 < r)
    (halign : alignedSplit r chunks) :
    (runFIR r (NewFIRFilter taps) chunks).2 =
      ((NewFIRFilter taps).Process chunks.flatten r).2.getD [] := by
  rw [process_new_eq_monoFIR taps r chunks.flatten htaps]
  have hstate : ((List.replicate (taps.length - 1) (0 : ℚ) ++ chunks.flatten).take
      ((taps.length - 1) + 0)).drop 0 = List.replicate (taps.length - 1) (0 : ℚ) := by
    have h0 := @List.take_append ℚ (List.replicate (taps.length - 1) (0 : ℚ))
      chunks.flatten 0
    rw [List.length_replicate] at h0
    rw [List.drop_zero, h0]
    simp
  have halign' : ∀ k, 0 < k → k < chunks.length →
      ((⌊((0 + ((chunks.take k).flatten).length : ℕ) : ℚ) * r⌋ : ℤ) : ℚ) =
        ((0 + ((chunks.take k).flatten).length : ℕ) : ℚ) * r := by
    intro k hk hkl
    have h := halign k hk hkl
    simpa [cumLen] using h
  have h := runFIR_aligned_inv taps r chunks.flatten htaps hr chunks 0 0 0
    le_rfl (by simp) (by simp) (by simp) (by simp) halign'
  rw [hstate] at h
  simpa [NewFIRFilter] using h

/-- Witness for the amended C2 at kernel `[1]`, ratio `1/2`, and the aligned
split `[1, 2] / [3, 4, 5, 6]` (boundary at cumulative length 2,
`2 * (1/2) = 1` an integer). -/
theorem fir_chunk_invariance_aligned_witness :
    1 ≤ ([1] : List ℚ).length ∧ (0 : ℚ) < 1/2 ∧
    alignedSplit (1/2) [[1, 2], [3, 4, 5, 6]] ∧
    (runFIR (1/2) (NewFIRFilter [1]) [[1, 2], [3, 4, 5, 6]]).2 =
      ((NewFIRFilter [1]).Process ([[1, 2], [3, 4, 5, 6]] :
        List (List ℚ)).flatten (1/2)).2.getD [] :=
  ⟨by simp, by norm_num,
    by
      intro k hk hkl
      simp only [List.length_cons, List.length_nil] at hkl
      have hk1 : k = 1 := by omega
      subst hk1
      norm_num [cumLen],
    fir_chunk_invariance_aligned [1] (1/2) [[1, 2], [3, 4, 5, 6]] (by simp)
      (by norm_num)
      (by
        intro k hk hkl
        simp only [List.length_cons, List.length_nil] at hkl
        have hk1 : k = 1 := by omega
        subst hk1
        norm_num [cumLen])⟩

/-! ## Phase-differentiation demodulator (src/internal/dsp/demodulator.go) -/

/-- Embedding of the Go struct `Demodulator`, holding the previous block's
last complex sample (`prev complex64`). -/
structure Demodulator where
  prev : ℂ

/-- Embedding of `NewDemodulator`: the Go zero value of `complex64` is `0`. -/
def NewDemodulator : Demodulator := ⟨0⟩

/-- The Go line `prevConjugate := complex(real(prev), -imag(prev))`. -/
def conjGo (z : ℂ) : ℂ := ⟨z.re, -z.im⟩

/-- The demodulation loop of `Demodulator.Process`: each output sample is the
phase (`cmplx.Phase`, embedded as `Complex.arg`) of the current sample times
the conjugate of the previous one; the second component is the value of
`prev` when the loop ends. -/
noncomputable def demodLoop (prev : ℂ) : List ℂ → List ℝ × ℂ
  | [] => ([], prev)
  | c :: rest =>
    let next := demodLoop c rest
    ((c * conjGo prev).arg :: next.1, next.2)

/-- Embedding of `Demodulator.Process`: an empty input returns `nil` without
touching the state; otherwise the loop outputs are returned and the block's
last sample is stored as the new carried state. -/
noncomputable def Demodulator.Process (d : Demodulator) :
    List ℂ → Demodulator × Option (List ℝ)
  | [] => (d, none)
  | c :: rest =>
    let res := demodLoop d.prev (c :: rest)
    (⟨res.2⟩, some res.1)

/-- Feeding a list of successive blocks through one demodulator instance,
concatenating all produced outputs. -/
noncomputable def runDemod : Demodulator → List (List ℂ) → Demodulator × List ℝ
  | d, [] => (d, [])
  | d, c :: cs =>
    let step := d.Process c
    let rest := runDemod step.1 cs
    (rest.1, step.2.getD [] ++ rest.2)

/-! ### demodLoop characterization -/

lemma demodLoop_length (p : ℂ) (l : List ℂ) :
    (demodLoop p l).1.length = l.length := by
  induction l generalizing p with
  | nil => rfl
  | cons c rest ih => simp [demodLoop, ih]

lemma demodLoop_last (p : ℂ) (l : List ℂ) :
    (demodLoop p l).2 = l.getLastD p := by
  induction l generalizing p with
  | nil => rfl
  | cons c rest ih =>
    simp only [demodLoop]
    rw [ih c, List.getLastD_cons]

lemma demodLoop_get (p : ℂ) (l : List ℂ) :
    ∀ i, i < l.length →
      (demodLoop p l).1[i]? =
        some ((l.getD i 0 * conjGo (if i = 0 then p else l.getD (i - 1) 0)).arg) := by
  induction l generalizing p with
  | nil => intro i hi; simp at hi
  | cons c rest ih =>
    intro i hi
    match i with
    | 0 => simp [demodLoop]
    | Nat.succ i =>
      simp only [demodLoop, List.getElem?_cons_succ]
      rw [ih c i (by simpa using hi)]
      have harg : (if i = 0 then c else rest.getD (i - 1) 0) = (c :: rest).getD i 0 := by
        match i with
        | 0 => simp
        | Nat.succ j => simp [List.getD_cons_succ]
      rw [harg]
      simp [List.getD_cons_succ]

lemma demodLoop_append (p : ℂ) (a b : List ℂ) :
    demodLoop p (a ++ b) =
      ((demodLoop p a).1 ++ (demodLoop (demodLoop p a).2 b).1,
        (demodLoop (demodLoop p a).2 b).2) := by
  induction a generalizing p with
  | nil => simp [demodLoop]
  | cons c rest ih => simp [demodLoop, ih]

/-- The concatenated outputs of any block run are the loop outputs over the
concatenated input, and the final state is the loop's final carried value. -/
lemma runDemod_eq (d : Demodulator) (cs : List (List ℂ)) :
    (runDemod d cs).2 = (demodLoop d.prev cs.flatten).1 ∧
      (runDemod d cs).1 = ⟨(demodLoop d.prev cs.flatten).2⟩ := by
  induction cs generalizing d with
  | nil => exact ⟨rfl, rfl⟩
  | cons c cs' ih =>
    match c with
    | [] =>
      simp only [runDemod, Demodulator.Process, List.flatten_cons, List.nil_append,
        Option.getD_none]
      exact (ih d)
    | c₀ :: crest =>
      simp only [runDemod, Demodulator.Process, List.flatten_cons]
      have h := ih ⟨(demodLoop d.prev (c₀ :: crest)).2⟩
      rw [demodLoop_append]
      refine ⟨?_, ?_⟩
      · simp only [Option.getD_some]
        rw [h.1]
      · rw [h.2]

/-- C4: Demodulator functional contract.  For every non-empty input block
and every carried state, `Process` returns a present output of exactly the
input's length whose `i`-th sample is the angle of `s[i] * conj(s[i-1])`
(with `s[-1]` the carried state), the angle lying in `(-π, π]`; after
processing, the carried state is the block's last sample. -/
theorem demodulator_process_contract (d : Demodulator) (samples : List ℂ)
    (h : samples ≠ []) :
    ∃ out : List ℝ,
      d.Process samples = (⟨samples.getLast h⟩, some out) ∧
      out.length = samples.length ∧
      (∀ i, i < samples.length →
        out[i]? = some ((samples.getD i 0 *
          conjGo (if i = 0 then d.prev else samples.getD (i - 1) 0)).arg)) ∧
      (∀ i, i < samples.length →
        out.getD i 0 ∈ Set.Ioc (-Real.pi) Real.pi) := by
  match samples with
  | c :: rest =>
    refine ⟨(demodLoop d.prev (c :: rest)).1, ?_, ?_, ?_, ?_⟩
    · show ((⟨(demodLoop d.prev (c :: rest)).2⟩ : Demodulator),
          some (demodLoop d.prev (c :: rest)).1) = _
      rw [demodLoop_last, List.getLastD_eq_getLast?,
        List.getLast?_eq_getLast (c :: rest) h, Option.getD_some]
    · exact demodLoop_length d.prev (c :: rest)
    · exact demodLoop_get d.prev (c :: rest)
    · intro i hi
      rw [List.getD_eq_getElem?_getD, demodLoop_get d.prev (c :: rest) i hi,
        Option.getD_some]
      exact Complex.arg_mem_Ioc _

/-- Witness for C4 at `d = NewDemodulator`, `samples = [1]`. -/
theorem demodulator_process_contract_witness :
    ([1] : List ℂ) ≠ [] ∧
    ∃ out : List ℝ,
      NewDemodulator.Process [1] =
        (⟨([1] : List ℂ).getLast (by simp)⟩, some out) ∧
      out.length = ([1] : List ℂ).length ∧
      (∀ i, i < ([1] : List ℂ).length →
        out[i]? = some ((([1] : List ℂ).getD i 0 *
          conjGo (if i = 0 then NewDemodulator.prev
            else ([1] : List ℂ).getD (i - 1) 0)).arg)) ∧
      (∀ i, i < ([1] : List ℂ).length →
        out.getD i 0 ∈ Set.Ioc (-Real.pi) Real.pi) :=
  ⟨by simp, demodulator_process_contract NewDemodulator [1] (by simp)⟩

/-- C9: processing an empty block is a no-op: the result is absent (`nil`)
and the demodulator — every field of it — is returned unchanged. -/
theorem demodulator_empty_noop (d : Demodulator) : d.Process [] = (d, none) := rfl

/-- C5: Demodulator chunk-invariance.  For every way of splitting the same
total input into successive blocks, the concatenation of the per-block
outputs has the full input's length and agrees with the single monolithic
call's output at every sample index `i ≥ 1`, both runs starting from a
fresh demodulator with zero carried state. -/
theorem demodulator_chunk_invariance (chunks : List (List ℂ)) (i : ℕ)
    (_hi : 0 < i) :
    (runDemod NewDemodulator chunks).2.length = chunks.flatten.length ∧
    (runDemod NewDemodulator chunks).2[i]? =
      ((NewDemodulator.Process chunks.flatten).2.getD [])[i]? := by
  have h := runDemod_eq NewDemodulator chunks
  constructor
  · rw [h.1, demodLoop_length]
  · rw [h.1]
    cases hflat : chunks.flatten with
    | nil => simp [Demodulator.Process, demodLoop]
    | cons c rest => simp [Demodulator.Process]

/-- Witness for C5 at `chunks = [[1], [Complex.I]]`, `i = 1`. -/
theorem demodulator_chunk_invariance_witness :
    0 < 1 ∧
    ((runDemod NewDemodulator [[1], [Complex.I]]).2.length =
      ([[1], [Complex.I]] : List (List ℂ)).flatten.length ∧
    (runDemod NewDemodulator [[1], [Complex.I]]).2[1]? =
      ((NewDemodulator.Process
        ([[1], [Complex.I]] : List (List ℂ)).flatten).2.getD [])[1]?) :=
  ⟨by decide, demodulator_chunk_invariance [[1], [Complex.I]] 1 (by decide)⟩

/-! ## De-emphasis filter (src/unnamed/part_001, package dsp) -/

/-- Embedding of the Go struct `Deemphasis` (`alpha`, `prev float64`). -/
structure Deemphasis where
  alpha : ℝ
  prev : ℝ

/-- Embedding of `NewDeemphasis`: `dt = 1/sampleRate`,
`alpha = dt / (tau + dt)`, zero initial state. -/
noncomputable def NewDeemphasis (sampleRate : ℤ) (tau : ℝ) : Deemphasis :=
  ⟨(1 / (sampleRate : ℝ)) / (tau + 1 / (sampleRate : ℝ)), 0⟩

/-- Embedding of `Deemphasis.Filter`:
`d.prev += d.alpha * (x - d.prev); return d.prev`. -/
noncomputable def Deemphasis.Filter (d : Deemphasis) (x : ℝ) : ℝ × Deemphasis :=
  (d.prev + d.alpha * (x - d.prev),
    { d with prev := d.prev + d.alpha * (x - d.prev) })

/-- The state after `k` successive `Filter x` calls under the sustained
constant input `x`; the output of call `k` is `(d.run x k).prev`. -/
noncomputable def Deemphasis.run (d : Deemphasis) (x : ℝ) : ℕ → Deemphasis
  | 0 => d
  | k + 1 => ((d.run x k).Filter x).2

/-- Closed form of the constant-input iteration:
`alpha` is preserved and `prev` approaches `x` geometrically. -/
lemma deemph_run_closed (d : Deemphasis) (x : ℝ) :
    ∀ k, (d.run x k).alpha = d.alpha ∧
      (d.run x k).prev = x - (1 - d.alpha) ^ k * (x - d.prev) := by
  intro k
  induction k with
  | zero =>
    refine ⟨rfl, ?_⟩
    show d.prev = x - (1 - d.alpha) ^ 0 * (x - d.prev)
    ring
  | succ k ih =>
    refine ⟨ih.1, ?_⟩
    show (d.run x k).prev + (d.run x k).alpha * (x - (d.run x k).prev) = _
    rw [ih.1, ih.2]
    ring

/-- C7: De-emphasis step response.  With `alpha = dt / (tau + dt)`,
`dt = 1 / sampleRate`, positive `sampleRate` and `tau`: `alpha` lies in
`(0, 1)`, and for every initial state and constant input `x` the sequence of
`Filter x` outputs is non-decreasing and bounded above by `x` when starting
at or below `x`, non-increasing and bounded below by `x` when starting at or
above `x` (never overshooting), and converges to `x`. -/
theorem deemphasis_step_response (sampleRate : ℤ) (tau : ℝ) (s0 x : ℝ)
    (hsr : 0 < sampleRate) (htau : 0 < tau) :
    (0 < (NewDeemphasis sampleRate tau).alpha ∧
      (NewDeemphasis sampleRate tau).alpha < 1) ∧
    ((s0 ≤ x →
      (∀ k, ((⟨(NewDeemphasis sampleRate tau).alpha, s0⟩ : Deemphasis).run x k).prev ≤
        ((⟨(NewDeemphasis sampleRate tau).alpha, s0⟩ : Deemphasis).run x (k + 1)).prev) ∧
      (∀ k, ((⟨(NewDeemphasis sampleRate tau).alpha, s0⟩ : Deemphasis).run x k).prev ≤ x)) ∧
    (x ≤ s0 →
      (∀ k, ((⟨(NewDeemphasis sampleRate tau).alpha, s0⟩ : Deemphasis).run x (k + 1)).prev ≤
        ((⟨(NewDeemphasis sampleRate tau).alpha, s0⟩ : Deemphasis).run x k).prev) ∧
      (∀ k, x ≤ ((⟨(NewDeemphasis sampleRate tau).alpha, s0⟩ : Deemphasis).run x k).prev)) ∧
    Filter.Tendsto
      (fun k => ((⟨(NewDeemphasis sampleRate tau).alpha, s0⟩ : Deemphasis).run x k).prev)
      Filter.atTop (nhds x)) := by
  have hsr' : (0 : ℝ) < (sampleRate : ℝ) := by exact_mod_cast hsr
  have hdt : (0 : ℝ) < 1 / (sampleRate : ℝ) := by positivity
  have hα0 : 0 < (NewDeemphasis sampleRate tau).alpha := by
    show 0 < (1 / (sampleRate : ℝ)) / (tau + 1 / (sampleRate : ℝ))
    positivity
  have hα1 : (NewDeemphasis sampleRate tau).alpha < 1 := by
    show (1 / (sampleRate : ℝ)) / (tau + 1 / (sampleRate : ℝ)) < 1
    rw [div_lt_one (by linarith)]
    linarith
  set α := (NewDeemphasis sampleRate tau).alpha with hα
  have hpow : ∀ k : ℕ, 0 ≤ (1 - α) ^ k := fun k => pow_nonneg (by linarith) k
  have hclosed := deemph_run_closed (⟨α, s0⟩ : Deemphasis) x
  refine ⟨⟨hα0, hα1⟩, ⟨?_, ?_, ?_⟩⟩
  · intro hs
    constructor
    · intro k
      rw [(hclosed k).2, (hclosed (k + 1)).2]
      have hfac : 0 ≤ (1 - α) ^ k * (x - s0) * α :=
        mul_nonneg (mul_nonneg (hpow k) (by linarith)) (le_of_lt hα0)
      have h1 : (1 - α) ^ (k + 1) * (x - s0) ≤ (1 - α) ^ k * (x - s0) := by
        rw [pow_succ]
        nlinarith [hfac]
      dsimp only
      linarith
    · intro k
      rw [(hclosed k).2]
      dsimp only
      nlinarith [mul_nonneg (hpow k) (show (0 : ℝ) ≤ x - s0 by linarith)]
  · intro hs
    constructor
    · intro k
      rw [(hclosed k).2, (hclosed (k + 1)).2]
      have hfac : 0 ≤ (1 - α) ^ k * (s0 - x) * α :=
        mul_nonneg (mul_nonneg (hpow k) (by linarith)) (le_of_lt hα0)
      have h1 : (1 - α) ^ k * (x - s0) ≤ (1 - α) ^ (k + 1) * (x - s0) := by
        rw [pow_succ]
        nlinarith [hfac]
      dsimp only
      linarith
    · intro k
      rw [(hclosed k).2]
      dsimp only
      nlinarith [mul_nonneg (hpow k) (show (0 : ℝ) ≤ s0 - x by linarith)]
  · have hlim : Filter.Tendsto (fun k : ℕ => (1 - α) ^ k) Filter.atTop (nhds 0) :=
      tendsto_pow_atTop_nhds_zero_of_lt_one (by linarith) (by linarith)
    have h2 := hlim.mul_const (x - s0)
    rw [zero_mul] at h2
    have h3 := (tendsto_const_nhds (x := x) (f := Filter.atTop)).sub h2
    rw [sub_zero] at h3
    refine Filter.Tendsto.congr ?_ h3
    intro k
    rw [(hclosed k).2]

/-- Witness for C7 at `sampleRate = 48000`, `tau = 1/20000` (50 µs),
`s0 = 0`, `x = 1`. -/
theorem deemphasis_step_response_witness :
    (0 : ℤ) < 48000 ∧ (0 : ℝ) < 1/20000 ∧
    ((0 < (NewDeemphasis 48000 (1/20000)).alpha ∧
      (NewDeemphasis 48000 (1/20000)).alpha < 1) ∧
    (((0 : ℝ) ≤ 1 →
      (∀ k, ((⟨(NewDeemphasis 48000 (1/20000)).alpha, 0⟩ : Deemphasis).run 1 k).prev ≤
        ((⟨(NewDeemphasis 48000 (1/20000)).alpha, 0⟩ : Deemphasis).run 1 (k + 1)).prev) ∧
      (∀ k, ((⟨(NewDeemphasis 48000 (1/20000)).alpha, 0⟩ : Deemphasis).run 1 k).prev ≤ 1)) ∧
    ((1 : ℝ) ≤ 0 →
      (∀ k, ((⟨(NewDeemphasis 48000 (1/20000)).alpha, 0⟩ : Deemphasis).run 1 (k + 1)).prev ≤
        ((⟨(NewDeemphasis 48000 (1/20000)).alpha, 0⟩ : Deemphasis).run 1 k).prev) ∧
      (∀ k, (1 : ℝ) ≤ ((⟨(NewDeemphasis 48000 (1/20000)).alpha, 0⟩ : Deemphasis).run 1 k).prev)) ∧
    Filter.Tendsto
      (fun k => ((⟨(NewDeemphasis 48000 (1/20000)).alpha, 0⟩ : Deemphasis).run 1 k).prev)
      Filter.atTop (nhds 1))) :=
  ⟨by norm_num, by norm_num,
    deemphasis_step_response 48000 (1/20000) 0 1 (by norm_num) (by norm_num)⟩

/-! ## Bounded sample channel (src/internal/ringbuffer/ringbuffer.go)

All state mutation in the Go code happens under one mutex, and
`sync.Cond.Wait` releases it only while suspended, so every lock-to-lock
section is an atomic step; the methods are embedded as pure state
transformers over a serialized trace.  An outer `none` models a call that
blocks forever in the serialized setting (or the write-after-close panic). -/

/-- Embedding of the Go struct `RingBuffer`: fixed storage, read/write
cursors, and the closed flag. -/
structure RingBuffer where
  buf : List ℤ
  size : ℕ
  readIndex : ℕ
  writeIndex : ℕ
  closed : Bool
deriving DecidableEq, Repr

/-- Embedding of `New`. -/
def RingBuffer.New (size : ℕ) : RingBuffer :=
  ⟨List.replicate size 0, size, 0, 0, false⟩

/-- Embedding of `AvailableWrite`. -/
def RingBuffer.AvailableWrite (rb : RingBuffer) : ℕ :=
  if rb.writeIndex ≥ rb.readIndex then rb.size - (rb.writeIndex - rb.readIndex) - 1
  else rb.readIndex - rb.writeIndex - 1

/-- Embedding of `AvailableRead`. -/
def RingBuffer.AvailableRead (rb : RingBuffer) : ℕ :=
  if rb.writeIndex ≥ rb.readIndex then rb.writeIndex - rb.readIndex
  else rb.size - rb.readIndex + rb.writeIndex

/-- Go `copy(l[pos:], src.take cnt)`: overwrite `cnt` elements of `l`
starting at `pos` with the first `cnt` elements of `src`. -/
def copySeg (l : List ℤ) (pos : ℕ) (src : List ℤ) (cnt : ℕ) : List ℤ :=
  l.take pos ++ src.take cnt ++ l.drop (pos + cnt)

/-- The `Write` copy loop.  Each iteration first waits for space
(`for AvailableWrite() == 0 { Wait }`; with no concurrent reader in the
serialized trace this never returns, modeled as `none`), then copies one
chunk exactly as the Go branches do.  Each iteration consumes at least one
sample, so `data.length` fuel suffices. -/
def RingBuffer.writeLoop : ℕ → RingBuffer → List ℤ → Option RingBuffer
  | _, rb, [] => some rb
  | 0, _, _ => none
  | fuel + 1, rb, data =>
    if rb.AvailableWrite = 0 then none
    else if rb.writeIndex ≥ rb.readIndex then
      let written := min (rb.size - rb.writeIndex) data.length
      RingBuffer.writeLoop fuel
        { rb with
            buf := copySeg rb.buf rb.writeIndex data written,
            writeIndex := (rb.writeIndex + written) % rb.size }
        (data.drop written)
    else
      let written := min (rb.readIndex - 1 - rb.writeIndex) data.length
      RingBuffer.writeLoop fuel
        { rb with
            buf := copySeg rb.buf rb.writeIndex data written,
            writeIndex := rb.writeIndex + written }
        (data.drop written)

/-- Embedding of `Write`: the write-after-close panic is `none`, otherwise
the copy loop runs. -/
def RingBuffer.Write (rb : RingBuffer) (data : List ℤ) : Option RingBuffer :=
  if rb.closed then none
  else RingBuffer.writeLoop data.length rb data

/-- Embedding of `Close`. -/
def RingBuffer.Close (rb : RingBuffer) : RingBuffer :=
  { rb with closed := true }

/-- The live FIFO contents of the buffer, from the read cursor up to the
write cursor (wrapping at the end of storage). -/
def RingBuffer.contents (rb : RingBuffer) : List ℤ :=
  if rb.writeIndex ≥ rb.readIndex then
    (rb.buf.drop rb.readIndex).take (rb.writeIndex - rb.readIndex)
  else
    rb.buf.drop rb.readIndex ++ rb.buf.take rb.writeIndex

/-- Embedding of `Read`: the outer `none` models a call that blocks (open
channel with fewer than `n` samples and nobody to wake it in a serialized
trace); the Go `nil` return (end-of-stream) is the inner `none`; otherwise
the freshly copied samples and the advanced buffer are returned. -/
def RingBuffer.Read (rb : RingBuffer) (n : ℕ) :
    Option (Option (List ℤ) × RingBuffer) :=
  if ¬rb.closed ∧ rb.AvailableRead < n then none
  else if rb.closed ∧ rb.AvailableRead = 0 then some (none, rb)
  else
    let readSize := min n rb.AvailableRead
    if readSize = 0 then some (none, rb)
    else
      let data :=
        if rb.readIndex + readSize ≤ rb.size then
          (rb.buf.drop rb.readIndex).take readSize
        else
          (rb.buf.drop rb.readIndex).take (rb.size - rb.readIndex) ++
            rb.buf.take (readSize - (rb.size - rb.readIndex))
      some (some data, { rb with readIndex := (rb.readIndex + readSize) % rb.size })

/-- C1: the ring buffer loses data.  Writing exactly `size` samples into a
fresh buffer makes the first `Write` branch copy `size - writeIndex` samples
even though only `size - writeIndex - 1` slots are free when
`readIndex = 0`; `writeIndex` wraps onto `readIndex`, the buffer registers
as empty, and after `Close` the first `Read` reports end-of-stream (`nil`):
all four written samples are dropped instead of being drained exactly
once. -/
theorem ringbuffer_write_wrap_loses_data :
    ((RingBuffer.New 4).Write [1, 2, 3, 4]).map
        (fun rb1 => (rb1.Close.Read 4).map Prod.fst) =
      some (some none) := by decide

/-- C8: channel read-when-closed semantics.  For a well-formed buffer
(storage length = size, cursors in range): while the channel is open with
fewer than `n` samples available, `Read` blocks; once closed with fewer than
`n` samples remaining, it returns the end-of-stream `nil` when nothing
remains, and otherwise returns exactly the remaining samples in FIFO order
(a fresh copy whose length is the remaining count, short of `n`), leaving
the buffer drained so that a subsequent call signals end-of-stream. -/
theorem ringbuffer_read_closed_semantics (rb : RingBuffer) (n : ℕ)
    (hlen : rb.buf.length = rb.size)
    (hr : rb.readIndex < rb.size) (hw : rb.writeIndex < rb.size) :
    ((¬rb.closed ∧ rb.AvailableRead < n) → rb.Read n = none) ∧
    (rb.closed = true → rb.AvailableRead < n →
      (rb.AvailableRead = 0 → rb.Read n = some (none, rb)) ∧
      (0 < rb.AvailableRead →
        ∃ rb' : RingBuffer,
          rb.Read n = some (some rb.contents, rb') ∧
          rb.contents.length = rb.AvailableRead ∧
          rb'.AvailableRead = 0 ∧
          rb'.Read n = some (none, rb'))) := by
  constructor
  · intro h
    unfold RingBuffer.Read
    rw [if_pos h]
  · intro hcl hlt
    constructor
    · intro h0
      unfold RingBuffer.Read
      rw [if_neg (by simp [hcl]), if_pos ⟨hcl, h0⟩]
    · intro hpos
      have hmin : min n rb.AvailableRead = rb.AvailableRead :=
        Nat.min_eq_right (le_of_lt hlt)
      have hdata : (if rb.readIndex + min n rb.AvailableRead ≤ rb.size then
            (rb.buf.drop rb.readIndex).take (min n rb.AvailableRead)
          else
            (rb.buf.drop rb.readIndex).take (rb.size - rb.readIndex) ++
              rb.buf.take (min n rb.AvailableRead - (rb.size - rb.readIndex))) =
          rb.contents := by
        rw [hmin]
        unfold RingBuffer.contents RingBuffer.AvailableRead
        have hrlen : (rb.buf.drop rb.readIndex).length = rb.size - rb.readIndex := by
          simp [hlen]
        by_cases hge : rb.writeIndex ≥ rb.readIndex
        · rw [if_pos hge, if_pos hge,
            if_pos (by omega : rb.readIndex + (rb.writeIndex - rb.readIndex) ≤ rb.size)]
        · rw [if_neg hge, if_neg hge]
          by_cases hw0 : rb.writeIndex = 0
          · rw [if_pos (by omega : rb.readIndex +
              (rb.size - rb.readIndex + rb.writeIndex) ≤ rb.size)]
            rw [hw0]
            rw [show rb.size - rb.readIndex + 0 = (rb.buf.drop rb.readIndex).length by
              simp [hrlen]]
            rw [List.take_length]
            simp
          · rw [if_neg (by omega : ¬(rb.readIndex +
              (rb.size - rb.readIndex + rb.writeIndex) ≤ rb.size))]
            have harg2 : rb.size - rb.readIndex + rb.writeIndex -
                (rb.size - rb.readIndex) = rb.writeIndex := by omega
            rw [harg2]
            congr 1
            rw [show rb.size - rb.readIndex = (rb.buf.drop rb.readIndex).length from
              hrlen.symm]
            exact List.take_length _
      have havail : RingBuffer.AvailableRead { rb with
          readIndex := (rb.readIndex + min n rb.AvailableRead) % rb.size } = 0 := by
        rw [hmin]
        unfold RingBuffer.AvailableRead
        simp only
        by_cases hge : rb.writeIndex ≥ rb.readIndex
        · rw [if_pos hge]
          have harg : (rb.readIndex + (rb.writeIndex - rb.readIndex)) % rb.size =
              rb.writeIndex := by
            rw [show rb.readIndex + (rb.writeIndex - rb.readIndex) = rb.writeIndex by
              omega]
            exact Nat.mod_eq_of_lt hw
          rw [harg, if_pos le_rfl]
          omega
        · rw [if_neg hge]
          have harg : (rb.readIndex + (rb.size - rb.readIndex + rb.writeIndex)) %
              rb.size = rb.writeIndex := by
            rw [show rb.readIndex + (rb.size - rb.readIndex + rb.writeIndex) =
              rb.size + rb.writeIndex by omega]
            rw [Nat.add_mod_left]
            exact Nat.mod_eq_of_lt hw
          rw [harg, if_pos le_rfl]
          omega
      refine ⟨{ rb with
          readIndex := (rb.readIndex + min n rb.AvailableRead) % rb.size },
          ?_, ?_, ?_, ?_⟩
      · unfold RingBuffer.Read
        rw [if_neg (by simp [hcl]), if_neg (by simp [hcl]; omega), if_neg (by omega),
          hdata]
      · unfold RingBuffer.contents RingBuffer.AvailableRead
        by_cases hge : rb.writeIndex ≥ rb.readIndex
        · rw [if_pos hge, if_pos hge]
          simp only [List.length_take, List.length_drop, hlen]
          omega
        · rw [if_neg hge, if_neg hge]
          simp only [List.length_append, List.length_take, List.length_drop, hlen]
          omega
      · exact havail
      · unfold RingBuffer.Read
        rw [if_neg (by simp [hcl]), if_pos ⟨hcl, havail⟩]

/-- Witness for C8 at the closed buffer `⟨[7, 8, 0, 0], 4, 0, 2, true⟩`
(two samples remaining) and `n = 3`. -/
theorem ringbuffer_read_closed_semantics_witness :
    (⟨[7, 8, 0, 0], 4, 0, 2, true⟩ : RingBuffer).buf.length =
      (⟨[7, 8, 0, 0], 4, 0, 2, true⟩ : RingBuffer).size ∧
    (⟨[7, 8, 0, 0], 4, 0, 2, true⟩ : RingBuffer).readIndex <
      (⟨[7, 8, 0, 0], 4, 0, 2, true⟩ : RingBuffer).size ∧
    (⟨[7, 8, 0, 0], 4, 0, 2, true⟩ : RingBuffer).writeIndex <
      (⟨[7, 8, 0, 0], 4, 0, 2, true⟩ : RingBuffer).size ∧
    (((¬(⟨[7, 8, 0, 0], 4, 0, 2, true⟩ : RingBuffer).closed ∧
        (⟨[7, 8, 0, 0], 4, 0, 2, true⟩ : RingBuffer).AvailableRead < 3) →
      (⟨[7, 8, 0, 0], 4, 0, 2, true⟩ : RingBuffer).Read 3 = none) ∧
    ((⟨[7, 8, 0, 0], 4, 0, 2, true⟩ : RingBuffer).closed = true →
      (⟨[7, 8, 0, 0], 4, 0, 2, true⟩ : RingBuffer).AvailableRead < 3 →
      ((⟨[7, 8, 0, 0], 4, 0, 2, true⟩ : RingBuffer).AvailableRead = 0 →
        (⟨[7, 8, 0, 0], 4, 0, 2, true⟩ : RingBuffer).Read 3 =
          some (none, ⟨[7, 8, 0, 0], 4, 0, 2, true⟩)) ∧
      (0 < (⟨[7, 8, 0, 0], 4, 0, 2, true⟩ : RingBuffer).AvailableRead →
        ∃ rb' : RingBuffer,
          (⟨[7, 8, 0, 0], 4, 0, 2, true⟩ : RingBuffer).Read 3 =
            some (some (⟨[7, 8, 0, 0], 4, 0, 2, true⟩ : RingBuffer).contents, rb') ∧
          (⟨[7, 8, 0, 0], 4, 0, 2, true⟩ : RingBuffer).contents.length =
            (⟨[7, 8, 0, 0], 4, 0, 2, true⟩ : RingBuffer).AvailableRead ∧
          rb'.AvailableRead = 0 ∧
          rb'.Read 3 = some (none, rb')))) :=
  ⟨by decide, by decide, by decide,
    ringbuffer_read_closed_semantics ⟨[7, 8, 0, 0], 4, 0, 2, true⟩ 3
      (by decide) (by decide) (by decide)⟩

/-! ## Filter kernel designer (src/internal/dsp/dsp.go) -/

/-- The pre-window value of tap `n` in `DesignFIRLowPass`: the sinc term
with `fc = cutoff * 2`, the center sample (`x = 0`) defined as `fc` (the
limit, avoiding 0/0). -/
noncomputable def sincTap (numTaps : ℕ) (cutoff : ℝ) (n : ℕ) : ℝ :=
  if ((n : ℝ) - ((numTaps : ℝ) - 1) / 2) = 0 then cutoff * 2
  else cutoff * 2 *
    Real.sin (Real.pi * (cutoff * 2) * ((n : ℝ) - ((numTaps : ℝ) - 1) / 2)) /
      (Real.pi * (cutoff * 2) * ((n : ℝ) - ((numTaps : ℝ) - 1) / 2))

/-- The Hamming window factor applied to tap `n`:
`0.54 - 0.46 * cos(2 π n / M)`. -/
noncomputable def windowTap (numTaps : ℕ) (n : ℕ) : ℝ :=
  0.54 - 0.46 * Real.cos (2 * Real.pi * (n : ℝ) / ((numTaps : ℝ) - 1))

/-- Pre-normalization tap `n`: sinc value times window factor. -/
noncomputable def rawTap (numTaps : ℕ) (cutoff : ℝ) (n : ℕ) : ℝ :=
  sincTap numTaps cutoff n * windowTap numTaps n

/-- The normalization divisor: the sum of all pre-normalization taps. -/
noncomputable def rawTapSum (numTaps : ℕ) (cutoff : ℝ) : ℝ :=
  ∑ n ∈ Finset.range numTaps, rawTap numTaps cutoff n

/-- Embedding of `DesignFIRLowPass`: windowed-sinc taps, each divided by
their common sum. -/
noncomputable def DesignFIRLowPass (numTaps : ℕ) (cutoff : ℝ) : List ℝ :=
  (List.range numTaps).map fun n => rawTap numTaps cutoff n / rawTapSum numTaps cutoff

lemma list_range_map_sum (f : ℕ → ℝ) :
    ∀ n : ℕ, ((List.range n).map f).sum = ∑ i ∈ Finset.range n, f i := by
  intro n
  induction n with
  | zero => simp
  | succ n ih =>
    rw [List.range_succ, List.map_append, List.sum_append, ih, Finset.sum_range_succ]
    simp

/-- The pre-normalization taps are symmetric about the center. -/
lemma rawTap_symm (numTaps : ℕ) (cutoff : ℝ) (hN : 2 ≤ numTaps) :
    ∀ i < numTaps, rawTap numTaps cutoff (numTaps - 1 - i) = rawTap numTaps cutoff i := by
  intro i hi
  have hcast : ((numTaps - 1 - i : ℕ) : ℝ) = ((numTaps : ℝ) - 1) - (i : ℝ) := by
    have h1 : numTaps - 1 - i = numTaps - (1 + i) := by omega
    rw [h1, Nat.cast_sub (by omega : 1 + i ≤ numTaps)]
    push_cast
    ring
  unfold rawTap sincTap windowTap
  have hx : ((numTaps - 1 - i : ℕ) : ℝ) - ((numTaps : ℝ) - 1) / 2 =
      -((i : ℝ) - ((numTaps : ℝ) - 1) / 2) := by
    rw [hcast]
    ring
  congr 1
  · -- sinc part is even
    rw [hx]
    by_cases h0 : ((i : ℝ) - ((numTaps : ℝ) - 1) / 2) = 0
    · rw [h0]
      simp
    · rw [if_neg (show ¬(-((i : ℝ) - ((numTaps : ℝ) - 1) / 2) = 0) by
        rw [neg_eq_zero]; exact h0), if_neg h0]
      rw [mul_neg, Real.sin_neg, mul_neg, neg_div_neg_eq]
  · -- window part is symmetric
    rw [hcast]
    have harg : 2 * Real.pi * (((numTaps : ℝ) - 1) - (i : ℝ)) / ((numTaps : ℝ) - 1) =
        2 * Real.pi - 2 * Real.pi * (i : ℝ) / ((numTaps : ℝ) - 1) := by
      have hM : ((numTaps : ℝ) - 1) ≠ 0 := by
        have : (2 : ℝ) ≤ (numTaps : ℝ) := by exact_mod_cast hN
        intro hM0
        rw [sub_eq_zero] at hM0
        rw [hM0] at this
        norm_num at this
      field_simp
      ring
    rw [harg, Real.cos_two_pi_sub]

/-- C6: Filter Kernel Designer contract.  For every tap count `≥ 2` and
cutoff in `(0, 1/2)`, provided the pre-normalization windowed-sinc sum is
nonzero (the arithmetic precondition of the normalization divide),
`DesignFIRLowPass` returns a kernel of length exactly `numTaps` that is
symmetric (`tap[i] = tap[numTaps-1-i]`), whose coefficients sum to `1`, and
whose pre-window center sample at odd tap counts is the sinc limit value
`fc = 2 * cutoff` rather than 0/0. -/
theorem design_lowpass_contract (numTaps : ℕ) (cutoff : ℝ)
    (hN : 2 ≤ numTaps) (_hc0 : 0 < cutoff) (_hc1 : cutoff < 1/2)
    (hsum : rawTapSum numTaps cutoff ≠ 0) :
    (DesignFIRLowPass numTaps cutoff).length = numTaps ∧
    (∀ i < numTaps,
      (DesignFIRLowPass numTaps cutoff).getD i 0 =
        (DesignFIRLowPass numTaps cutoff).getD (numTaps - 1 - i) 0) ∧
    (DesignFIRLowPass numTaps cutoff).sum = 1 ∧
    (numTaps % 2 = 1 →
      sincTap numTaps cutoff ((numTaps - 1) / 2) = cutoff * 2) := by
  refine ⟨by simp [DesignFIRLowPass], ?_, ?_, ?_⟩
  · intro i hi
    have hj : numTaps - 1 - i < numTaps := by omega
    unfold DesignFIRLowPass
    rw [List.getD_eq_getElem?_getD, List.getD_eq_getElem?_getD,
      List.getElem?_map, List.getElem?_map, List.getElem?_range hi,
      List.getElem?_range hj]
    show rawTap numTaps cutoff i / rawTapSum numTaps cutoff =
      rawTap numTaps cutoff (numTaps - 1 - i) / rawTapSum numTaps cutoff
    rw [rawTap_symm numTaps cutoff hN i hi]
  · unfold DesignFIRLowPass
    rw [list_range_map_sum, ← Finset.sum_div]
    rw [← rawTapSum]
    exact div_self hsum
  · intro hodd
    have hcast : (((numTaps - 1) / 2 : ℕ) : ℝ) = ((numTaps : ℝ) - 1) / 2 := by
      have h2 : (numTaps - 1) / 2 * 2 = numTaps - 1 := by omega
      have h3 : (((numTaps - 1) / 2 : ℕ) : ℝ) * 2 = ((numTaps - 1 : ℕ) : ℝ) := by
        exact_mod_cast congrArg (Nat.cast : ℕ → ℝ) h2
      rw [Nat.cast_sub (by omega : 1 ≤ numTaps)] at h3
      push_cast at h3 ⊢
      linarith
    unfold sincTap
    rw [if_pos (by rw [hcast]; ring)]

/-- Concrete value of the pre-normalization sum at `numTaps = 3`,
`cutoff = 1/4`: all trigonometric terms are at special angles. -/
lemma rawTapSum_three : rawTapSum 3 (1/4) = 1/2 + 0.16 / Real.pi := by
  have hpi := Real.pi_pos
  unfold rawTapSum rawTap sincTap windowTap
  rw [Finset.sum_range_succ, Finset.sum_range_succ, Finset.sum_range_one]
  norm_num
  rw [show Real.pi * (1/2) = Real.pi / 2 by ring, Real.sin_pi_div_two]
  field_simp
  ring

lemma rawTapSum_three_ne_zero : rawTapSum 3 (1/4) ≠ 0 := by
  rw [rawTapSum_three]
  have hpi := Real.pi_pos
  positivity

/-- Witness for C6 at `numTaps = 3`, `cutoff = 1/4`. -/
theorem design_lowpass_contract_witness :
    2 ≤ 3 ∧ (0 : ℝ) < 1/4 ∧ (1/4 : ℝ) < 1/2 ∧ rawTapSum 3 (1/4) ≠ 0 ∧
    ((DesignFIRLowPass 3 (1/4)).length = 3 ∧
    (∀ i < 3,
      (DesignFIRLowPass 3 (1/4)).getD i 0 =
        (DesignFIRLowPass 3 (1/4)).getD (3 - 1 - i) 0) ∧
    (DesignFIRLowPass 3 (1/4)).sum = 1 ∧
    (3 % 2 = 1 → sincTap 3 (1/4) ((3 - 1) / 2) = 1/4 * 2)) :=
  ⟨by norm_num, by norm_num, by norm_num, rawTapSum_three_ne_zero,
    design_lowpass_contract 3 (1/4) (by norm_num) (by norm_num) (by norm_num)
      rawTapSum_three_ne_zero⟩

end IQDecoder
